import Mathlib

/-!
# Verification of the `bodgit/rom` synchronization engine

A shallow embedding, in Lean 4, of the core of the `bodgit/rom` repository:
the checksum / header handling (`checksum.go`, `nes.go`, `lynx.go`,
`header.go`), the readers (`reader.go`), the torrent-zip validity check,
the dat-file trimming (`dat/file.go`) and the synchronizer
(`synchronizer/*.go`).  Byte streams are modelled as `List Nat` (each
element a byte value), Go errors as `Option`/`Except`, and the
reconciler's filesystem effects as an explicit event trace over an
association-list filesystem.
-/

deriving instance DecidableEq for Except

namespace Rom

/-- The three supported hash algorithms (`Checksum` in `checksum.go`). -/
inductive Checksum where
  | crc32
  | md5
  | sha1
deriving DecidableEq, Repr

/-! ## `filepath.Ext`

Go's `filepath.Ext` returns the suffix of the final path element starting
at its last dot, or the empty string when the final element has no dot.
Member names in this code base never contain a path separator, so we model
it on the whole string. -/

/-- `strings.HasPrefix`, written over character lists so that concrete
instances reduce inside the kernel. -/
def hasPrefixStr (s p : String) : Bool :=
  s.toList.take p.length = p.toList

/-- `strings.ToLower`, written over character lists so that concrete
instances reduce inside the kernel. -/
def toLowerStr (s : String) : String :=
  String.mk (s.toList.map Char.toLower)

/-- `filepath.Ext` on a member name (no path separators). -/
def filepathExt (s : String) : String :=
  let rs := s.toList.reverse
  let pre := rs.takeWhile (fun c => c ≠ '.')
  if pre.length = rs.length then "" else String.mk ('.' :: pre.reverse)

/-! ## CRC-32 (IEEE), as used by `hash/crc32` -/

/-- One bit step of the reflected CRC-32 division (polynomial
`0xEDB88320`). -/
def crc32Step (c : Nat) : Nat :=
  if c % 2 = 1 then (c / 2) ^^^ 0xEDB88320 else c / 2

/-- Update the running CRC with one input byte. -/
def crc32UpdateByte (c b : Nat) : Nat :=
  crc32Step (crc32Step (crc32Step (crc32Step
    (crc32Step (crc32Step (crc32Step (crc32Step (c ^^^ (b % 256)))))))))

/-- IEEE CRC-32 of a byte list, the value computed by
`crc32.NewIEEE()` + `io.Copy` in Go. -/
def crc32 (data : List Nat) : Nat :=
  (data.foldl crc32UpdateByte 0xFFFFFFFF) ^^^ 0xFFFFFFFF

/-- Big-endian 4-byte rendering of a 32-bit value: this is both what
`hash.Hash.Sum(nil)` returns for CRC-32 and the byte slice literal
`[]byte{byte(0xff & (c >> 24)), byte(0xff & (c >> 16)),
byte(0xff & (c >> 8)), byte(c)}` built by `ZipReader.Checksum`. -/
def beBytes (c : Nat) : List Nat :=
  [0xff &&& (c >>> 24), 0xff &&& (c >>> 16), 0xff &&& (c >>> 8), c % 256]

/-! ## Header readers (`nes.go`, `lynx.go`)

`nesReader` / `lynxReader` take a stream, read the prospective header
(`io.CopyN`, failing when the stream is shorter), test the magic in bytes
0..4 and return the stream to hash together with the detected header
size.  `io.MultiReader(b, r)` re-prepends the buffered bytes, which on a
pure byte list is just the original list. -/

/-- `nesReader` from `nes.go`: strip a 16-byte iNES header when the magic
`"NES\x1a"` matches, `none` models the `io.CopyN` short-read error. -/
def nesReader (r : List Nat) : Option (List Nat × Nat) :=
  if r.length < 16 then none
  else if r.take 4 = [78, 69, 83, 0x1a] then some (r.drop 16, 16)
  else some (r, 0)

/-- `lynxReader` from `lynx.go`: strip a 64-byte header when the magic
`"LYNX"` matches. -/
def lynxReader (r : List Nat) : Option (List Nat × Nat) :=
  if r.length < 64 then none
  else if r.take 4 = [76, 89, 78, 88] then some (r.drop 64, 64)
  else some (r, 0)

/-- `headerSizeFunction` from `header.go`: the per-extension header
detector; extensions other than `.nes` and `.lnx` have no header and the
default `headerSize` reads nothing and returns 0. -/
def headerSizeFunction (filename : String) (r : List Nat) : Option Nat :=
  if filepathExt filename = ".lnx" then (lynxReader r).map Prod.snd
  else if filepathExt filename = ".nes" then (nesReader r).map Prod.snd
  else some 0

/-- `hasHeader` from `header.go`: whether the extension is registered in
`extensionToHeaderSize` (exactly `.lnx` and `.nes`). -/
def hasHeader (filename : String) : Bool :=
  filepathExt filename = ".lnx" ∨ filepathExt filename = ".nes"

/-! ## Checksum computation (`checksum.go`) -/

/-- The payload selected by the `".nes"` entry of `extensionToChecksum` in
`checksum.go`: read 16 bytes (`io.CopyN`, error when short), hash the
remainder when the magic matches, otherwise re-prepend the buffer and
hash everything. -/
def nesChecksumData (data : List Nat) : Option (List Nat) :=
  if data.length < 16 then none
  else if data.take 4 = [78, 69, 83, 0x1a] then some (data.drop 16)
  else some data

/-- `needsDirectChecksum` from `checksum.go`: true exactly when the
extension is a key of `extensionToChecksum`, whose only key is `".nes"`. -/
def needsDirectChecksum (filename : String) : Bool :=
  filepathExt filename = ".nes"

/-- The byte stream actually fed to the hash by
`checksumFunction(filename)`: the `".nes"` entry strips a matched iNES
header, every other name hashes the full stream. -/
def checksumPayload (filename : String) (data : List Nat) : Option (List Nat) :=
  if filepathExt filename = ".nes" then nesChecksumData data else some data

section HashFns

/- The MD5 and SHA-1 digests are treated as abstract functions from byte
streams to digest bytes; nothing in the verified claims depends on their
values. -/
variable (md5H sha1H : List Nat → List Nat)

/-- Apply one hash algorithm to a byte stream; for CRC-32 the Go
`Sum(nil)` value is the big-endian 4-byte rendering. -/
def applyHash : Checksum → List Nat → List Nat
  | .crc32, d => beBytes (crc32 d)
  | .md5, d => md5H d
  | .sha1, d => sha1H d

/-- `checksumFunction(filename)` applied to a stream and an algorithm:
select the payload per the extension rules, then hash it. -/
def checksumFunction (filename : String) (data : List Nat) (c : Checksum) :
    Option (List Nat) :=
  (checksumPayload filename data).map (applyHash md5H sha1H c)

/-- One member of a Zip (or 7z) archive as seen by `ZipReader.Checksum`:
its name, its decompressed content and the CRC-32 field stored in the
container's central directory. -/
structure ZipMember where
  name : String
  content : List Nat
  crc : Nat
deriving DecidableEq, Repr

/-- `ZipReader.Checksum` (also `SevenZipReader.Checksum`) from
`reader.go`: CRC-32 requests for names without special requirements
return the central-directory value rendered big-endian; everything else
streams the content through `checksumFunction`. -/
def zipChecksum (m : ZipMember) (c : Checksum) : Option (List Nat) :=
  if c = .crc32 ∧ ¬ needsDirectChecksum m.name then some (beBytes m.crc)
  else checksumFunction md5H sha1H m.name m.content c

end HashFns

/-- Modelled from the spec: §4.1's header rules name two header-bearing
extensions, `.nes` (length 16, magic `"NES\x1a"`) and `.lnx` (length 64,
magic `"LYNX"`).  This predicate is the spec's notion of "header-bearing
extension"; the code's `needsDirectChecksum` is compared against it. -/
def specHeaderBearing (filename : String) : Bool :=
  filepathExt filename = ".nes" ∨ filepathExt filename = ".lnx"

/-- Modelled from the spec: the header-aware hasher of §4.1, the hashing
pipeline of the revision whose `reader.go` is absent from the sources.  It
dispatches on the extensions registered in `header.go`
(`extensionToHeaderSize`), feeds the stream through the in-source
`nesReader` / `lynxReader`, and hashes the stream they return. -/
def headerAwareHash (md5H sha1H : List Nat → List Nat)
    (filename : String) (data : List Nat) (c : Checksum) :
    Option (List Nat) :=
  if filepathExt filename = ".lnx" then
    (lynxReader data).map (fun p => applyHash md5H sha1H c p.1)
  else if filepathExt filename = ".nes" then
    (nesReader data).map (fun p => applyHash md5H sha1H c p.1)
  else some (applyHash md5H sha1H c data)

/-! ## Torrent-zip reading (`torrentzip` handling in `reader.go`) -/

/-- Uppercase hexadecimal digit. -/
def hexDigit (n : Nat) : Char :=
  (['0', '1', '2', '3', '4', '5', '6', '7', '8', '9',
    'A', 'B', 'C', 'D', 'E', 'F']).getD n '0'

/-- `fmt.Sprintf("%X", bs)` on a byte slice: each byte as two uppercase
hexadecimal digits. -/
def bytesHexUpper (bs : List Nat) : String :=
  String.join (bs.map (fun b => String.mk [hexDigit (b / 16 % 16), hexDigit (b % 16)]))

/-- The raw shape of a Zip file as far as `NewTorrentZipReader` inspects
it: the central-directory entries (name and compressed size), the archive
comment, and the underlying file bytes. -/
structure RawZip where
  entries : List (String × Nat)
  comment : String
  data : List Nat

/-- The fixed archive-comment magic `"TORRENTZIPPED-"`. -/
def tzMagic : String := "TORRENTZIPPED-"

/-- `localFileHeaderLength` from `reader.go`. -/
def localFileHeaderLength : Nat := 30

/-- `centralFileDirectoryLength` from `reader.go`. -/
def centralFileDirectoryLength : Nat := 46

/-- The loop of `NewTorrentZipReader` that accumulates the start
(`socd`) and length (`eocd`) of the central directory over the entries:
`socd += 30 + len(file.Name) + file.CompressedSize64` and
`eocd += 46 + len(file.Name)`. -/
def cdRange (entries : List (String × Nat)) : Nat × Nat :=
  entries.foldl
    (fun p f =>
      (p.1 + localFileHeaderLength + f.1.utf8ByteSize + f.2,
       p.2 + centralFileDirectoryLength + f.1.utf8ByteSize))
    (0, 0)

/-- The abstract result of `NewTorrentZipReader`: the validity bit it
computes. -/
structure TorrentZipReader where
  valid : Bool
deriving DecidableEq, Repr

/-- The error `ErrNotTorrentZip`. -/
inductive TzError where
  | notTorrentZip
deriving DecidableEq, Repr

/-- `NewTorrentZipReader` from `reader.go`: fail with `ErrNotTorrentZip`
when the archive comment lacks the prefix; otherwise CRC-32 the central
directory byte range (an `io.SectionReader` at offset `socd`, length
`eocd`) and compare its uppercase hexadecimal against the comment's
suffix. -/
def newTorrentZipReader (z : RawZip) : Except TzError TorrentZipReader :=
  if ¬ hasPrefixStr z.comment tzMagic then .error .notTorrentZip
  else
    let r := cdRange z.entries
    let section_ := (z.data.drop r.1).take r.2
    .ok ⟨(z.comment.drop tzMagic.length) = bytesHexUpper (beBytes (crc32 section_))⟩

/-! ## The dat file model (`dat/file.go`) -/

/-- One `<rom>` element (`dat.ROM`): name, size, the three digest
attributes and the mutable `matched` flag. -/
structure DatROM where
  name : String
  size : Nat
  crc32v : String
  md5v : String
  sha1v : String
  matched : Bool
deriving DecidableEq, Repr

/-- `ROM.Checksum` from `dat/file.go`: the lowercase digest for the
requested algorithm. -/
def DatROM.checksumStr (r : DatROM) : Checksum → String
  | .crc32 => toLowerStr r.crc32v
  | .md5 => toLowerStr r.md5v
  | .sha1 => toLowerStr r.sha1v

/-- One `<game>` element (`dat.Game`). -/
structure DatGame where
  name : String
  category : String
  description : String
  roms : List DatROM
deriving DecidableEq, Repr

/-- The `<header>` block. -/
structure DatHeader where
  hname : String
  description : String
  version : String
  date : String
  author : String
  homepage : String
  url : String
deriving DecidableEq, Repr

/-- The whole dat file (`dat.File`). -/
structure DatFile where
  header : DatHeader
  games : List DatGame
deriving DecidableEq, Repr

/-- `ROM.isComplete`. -/
def DatROM.isComplete (r : DatROM) : Bool := r.matched

/-- `Game.isComplete`: the count of complete ROMs equals the number of
ROMs (vacuously true for a game with no ROMs). -/
def DatGame.isComplete (g : DatGame) : Bool :=
  (g.roms.filter DatROM.isComplete).length = g.roms.length

/-- `File.isComplete`: the count of complete games equals the number of
games (vacuously true for a file with no games). -/
def DatFile.isComplete (f : DatFile) : Bool :=
  (f.games.filter DatGame.isComplete).length = f.games.length

/-- Rendering of one `<rom>` element, per `ROM.MarshalXML`: nothing when
the ROM is complete, one element otherwise.  The attribute text stands in
for the token stream `encoding/xml` emits. -/
def DatROM.marshal (r : DatROM) : String :=
  if r.isComplete then ""
  else "<rom name=\x22" ++ r.name ++ "\x22 size=\x22" ++ toString r.size
    ++ "\x22 crc=\x22" ++ r.crc32v ++ "\x22 md5=\x22" ++ r.md5v
    ++ "\x22 sha1=\x22" ++ r.sha1v ++ "\x22></rom>"

/-- Rendering of one `<game>` element. -/
def DatGame.marshal (g : DatGame) : String :=
  "<game name=\x22" ++ g.name ++ "\x22><category>" ++ g.category
    ++ "</category><description>" ++ g.description ++ "</description>"
    ++ String.join (g.roms.map DatROM.marshal) ++ "</game>"

/-- Rendering of the header block. -/
def DatHeader.marshal (h : DatHeader) : String :=
  "<header><name>" ++ h.hname ++ "</name><description>" ++ h.description
    ++ "</description><version>" ++ h.version ++ "</version><date>"
    ++ h.date ++ "</date><author>" ++ h.author ++ "</author><homepage>"
    ++ h.homepage ++ "</homepage><url>" ++ h.url ++ "</url></header>"

/-- `File.MarshalXML` from `dat/file.go`: when the file is complete no
tokens at all are emitted; otherwise the `datafile` element is emitted
with the header and every incomplete game. -/
def DatFile.marshal (f : DatFile) : String :=
  if f.isComplete then ""
  else "<datafile>" ++ f.header.marshal
    ++ String.join ((f.games.filter (fun g => ¬ g.isComplete)).map DatGame.marshal)
    ++ "</datafile>"

/-- The standard-output write in `cmd/rom/main.go`: the marshalled bytes
plus a final newline are written only when the marshalled output is
non-empty. -/
def stdoutBytes (f : DatFile) : String :=
  if (DatFile.marshal f).length > 0 then DatFile.marshal f ++ "\n" else ""

/-! ## The synchronizer (`synchronizer/*.go`) -/

/-- The `source` struct from `synchronizer/db.go`: an archive path and a
member name within it (the spec's MemberRef). -/
structure Source where
  name : String
  file : String
deriving DecidableEq, Repr

/-- The `checksum` struct from `synchronizer/checksum.go`, the key of the
content index: algorithm, hex digest string and logical size. -/
structure Key where
  ty : Checksum
  value : String
  size : Nat
deriving DecidableEq, Repr

/-- `romChecksum` from `synchronizer/util.go`. -/
def romChecksum (r : DatROM) (c : Checksum) : Key :=
  ⟨c, r.checksumStr c, r.size⟩

/-- `gameFilename` from `synchronizer/util.go`. -/
def gameFilename (g : DatGame) : String := g.name ++ ".zip"

/-- `filepath.Join` on two components. -/
def joinPath (a b : String) : String := a ++ "/" ++ b

/-- The content index (`DB` in `synchronizer/db.go`) as an association
list from keys to the ordered buckets of sources, preserving first-scan
insertion order. -/
abbrev DBm := List (Key × List Source)

/-- `db.find`: the bucket for a key (Go map lookup defaults to nil). -/
def dbFind (db : DBm) (k : Key) : List Source :=
  match db with
  | [] => []
  | (k', v) :: rest => if k' = k then v else dbFind rest k

/-- `db.checksums[checksum] = append(db.checksums[checksum], s)`. -/
def dbAppend (db : DBm) (k : Key) (s : Source) : DBm :=
  match db with
  | [] => [(k, [s])]
  | (k', v) :: rest =>
      if k' = k then (k', v ++ [s]) :: rest else (k', v) :: dbAppend rest k s

/-- One archive member at the synchronizer's level of abstraction: its
name, the hex digest its content hashes to under the invocation's
algorithm, and its logical (post-header-strip) size.  `db.scan` obtains
exactly these via `reader.Size` and `reader.Checksum`. -/
structure Member where
  name : String
  digest : String
  size : Nat
deriving DecidableEq, Repr

/-- `db.scan(reader, t)` from `synchronizer/db.go`: append one source per
member of the archive under the member's fingerprint. -/
def dbScan (db : DBm) (archive : String) (members : List Member) (alg : Checksum) : DBm :=
  members.foldl (fun d m => dbAppend d ⟨alg, m.digest, m.size⟩ ⟨archive, m.name⟩) db

/-- `db.invalidate(name)` from `synchronizer/db.go`: drop every source
with that archive name and delete buckets that become empty. -/
def dbInvalidate (db : DBm) (archive : String) : DBm :=
  (db.map (fun p => (p.1, p.2.filter (fun s => s.name ≠ archive)))).filter
    (fun p => p.2 ≠ [])

/-! ### The greedy source selector (`popularSource` / `transfer`) -/

/-- All archive names occurring in candidate lists that still have more
than one entry: the multiset the `m` map of `popularSource` counts. -/
def multiNames (sources : List (String × List Source)) : List String :=
  sources.foldr
    (fun p acc => if p.2.length > 1 then p.2.map Source.name ++ acc else acc) []

/-- `popularSource` from `synchronizer/checksum.go`: return an archive
name of maximal multiplicity among the multi-entry lists, or `""` when
every list has at most one entry.  (Go's tie-break among equal counts is
unspecified map/sort order; this embedding fixes one admissible pick.) -/
def popularSource (sources : List (String × List Source)) : String :=
  let names := multiNames sources
  match names.argmax (fun n => names.count n) with
  | none => ""
  | some n => n

/-- The inner collapse of `transfer`: every list that still has more than
one entry and contains the winning archive name is pruned to the first
entry with that name. -/
def collapseSources (nm : String) (sources : List (String × List Source)) :
    List (String × List Source) :=
  sources.map (fun p =>
    if p.2.length > 1 then
      match p.2.find? (fun s => s.name = nm) with
      | some s => (p.1, [s])
      | none => p
    else p)

/-- The reduction loop of `transfer`
(`for name := popularSource(sources); name != ""; ...`), with explicit
fuel.  Each productive iteration collapses at least one multi-entry list,
so fuel equal to the number of lists always reaches the loop's exit
condition. -/
def reduceSources : Nat → List (String × List Source) → List (String × List Source)
  | 0, ss => ss
  | n + 1, ss =>
      let nm := popularSource ss
      if nm = "" then ss else reduceSources n (collapseSources nm ss)

/-- The final per-ROM selection: run the reduction to its exit condition
and take each list's surviving first entry (`src := source[0]`). -/
def selectionPicks (ss : List (String × List Source)) : List Source :=
  (reduceSources ss.length ss).filterMap (fun p => p.2.head?)

/-- The number of distinct archive names among a set of picks. -/
def distinctArchives (picks : List Source) : Nat :=
  (picks.map Source.name).dedup.length

/-! ### The per-game reconciler (`create` / `modify` / `gameWorker`) -/

/-- A file in the target directory as the reconciler observes it: its
top-level regular members and whether it reads back as a *valid*
canonical (torrent) zip — `false` both for a plain zip
(`ErrNotTorrentZip` fallback, no `Validator`) and for a canonical zip
whose central-directory CRC disagrees with its comment. -/
structure ZipFileM where
  members : List Member
  valid : Bool
deriving DecidableEq, Repr

/-- The target directory's contents: an association list from full paths
to files. -/
abbrev FSm := List (String × ZipFileM)

/-- Look a path up in the filesystem. -/
def fsLookup (fs : FSm) (p : String) : Option ZipFileM :=
  match fs with
  | [] => none
  | (q, f) :: rest => if q = p then some f else fsLookup rest p

/-- Write (or overwrite) a file at a path. -/
def fsSet (fs : FSm) (p : String) (f : ZipFileM) : FSm :=
  match fs with
  | [] => [(p, f)]
  | (q, g) :: rest => if q = p then (q, f) :: rest else (q, g) :: fsSet rest p f

/-- `os.RemoveAll` on a path. -/
def fsRemove (fs : FSm) (p : String) : FSm :=
  fs.filter (fun q => q.1 ≠ p)

/-- The observable actions of one reconciler run, in program order. -/
inductive Event where
  | log (msg : String)
  | createTarget (path : String)
  | writeTemp (path : String)
  | renameOver (src dst : String)
  | removePath (path : String)
  | invalidateIdx (archive : String)
  | scanIdx (archive : String)
deriving DecidableEq, Repr

/-- Whether an event is a pure log line. -/
def Event.isLog : Event → Bool
  | .log _ => true
  | _ => false

/-- Go map assignment `m[k] = v` on an association list. -/
def assocSet (m : List (String × List Source)) (k : String) (v : List Source) :
    List (String × List Source) :=
  match m with
  | [] => [(k, v)]
  | (k', v') :: rest =>
      if k' = k then (k', v) :: rest else (k', v') :: assocSet rest k v

/-- Association-list lookup keyed by ROM name. -/
def assocFind (m : List (String × List Source)) (k : String) : Option (List Source) :=
  match m with
  | [] => none
  | (k', v) :: rest => if k' = k then some v else assocFind rest k

/-- The loop body of `Synchronizer.create`'s source collection, with the
accumulated map made explicit. -/
def buildSourcesAux (db : DBm) (alg : Checksum) :
    List DatROM → List (String × List Source) → List (String × List Source)
  | [], acc => acc
  | r :: rest, acc =>
      let s := dbFind db (romChecksum r alg)
      if s ≠ [] then buildSourcesAux db alg rest (assocSet acc r.name s)
      else buildSourcesAux db alg rest acc

/-- The `sources` map built by `Synchronizer.create`: every ROM whose
fingerprint has a non-empty bucket. -/
def buildSources (db : DBm) (alg : Checksum) (roms : List DatROM) :
    List (String × List Source) :=
  buildSourcesAux db alg roms []

/-- The loop body of the `rom:` loop of `Synchronizer.modify`, with the
accumulated map and `rewrite` flag made explicit. -/
def modifySourcesAux (db : DBm) (alg : Checksum) (target : String) :
    List DatROM → List (String × List Source) × Bool →
      List (String × List Source) × Bool
  | [], acc => acc
  | r :: rest, acc =>
      let srcs := dbFind db (romChecksum r alg)
      if srcs = [] then modifySourcesAux db alg target rest acc
      else if srcs.any (fun s => s.name = target ∧ s.file = r.name) then
        modifySourcesAux db alg target rest
          (assocSet acc.1 r.name [⟨target, r.name⟩], acc.2)
      else modifySourcesAux db alg target rest (assocSet acc.1 r.name srcs, true)

/-- The `sources` map and `rewrite` flag built by the `rom:` loop of
`Synchronizer.modify`: a ROM whose bucket contains a self-reference to
the existing target keeps exactly that self-reference; a sourced ROM
without one keeps its whole bucket and forces `rewrite`. -/
def modifySources (db : DBm) (alg : Checksum) (roms : List DatROM)
    (target : String) (rw0 : Bool) : List (String × List Source) × Bool :=
  modifySourcesAux db alg target roms ([], rw0)

/-- The members `transfer` writes into a fresh archive: one member named
`r.Name` per catalog ROM that has a surviving source, in `game.ROM`
order.  The copied bytes come from a location the index recorded under
the ROM's fingerprint, so at this level of abstraction the produced
member carries exactly that fingerprint.  (The greedy reduction inside
`transfer` only collapses candidate lists and never changes which ROM
names have one, so it does not affect this member list.) -/
def producedMembers (alg : Checksum) (roms : List DatROM)
    (sources : List (String × List Source)) : List Member :=
  roms.filterMap (fun r =>
    if (assocFind sources r.name).isSome then
      some ⟨r.name, r.checksumStr alg, r.size⟩
    else none)

/-- The four actions of `Synchronizer.modify` on an existing target. -/
inductive Decision where
  | verify
  | delete
  | rebuild
  | modifyTarget
deriving DecidableEq, Repr

/-- The decision structure of `Synchronizer.modify`: the early
`!rewrite && len(sources) == len(reader.Files())` return, then the
`switch len(sources)` whose `case 0` precedes `case len(reader.Files())`. -/
def modifyDecision (rewrite : Bool) (sourcesLen filesLen : Nat) : Decision :=
  if ¬ rewrite ∧ sourcesLen = filesLen then .verify
  else if sourcesLen = 0 then .delete
  else if sourcesLen = filesLen then .rebuild
  else .modifyTarget

/-- The ROMs `gameWorker` marks as matched after the per-game action: it
re-opens `targetDir/<g.name>.zip`, and when the file exists marks every
catalog ROM whose name occurs in its sorted member list; when the file
does not exist nothing is marked. -/
def matchedRoms (fs : FSm) (target : String) (g : DatGame) : List DatROM :=
  match fsLookup fs target with
  | none => []
  | some f => g.roms.filter (fun r => (f.members.map Member.name).contains r.name)

/-- The result of processing one game: the target directory, the index,
the emitted events and the ROMs marked matched. -/
structure StepResult where
  fs : FSm
  db : DBm
  events : List Event
  matched : List DatROM

/-- One iteration of `Synchronizer.gameWorker` for one game, combining
`create` / `modify` and the name-based matching pass that follows them.
The temporary directory `ioutil.TempDir(dir, "")` is modelled by the
fixed subdirectory name `tmp`. -/
def gameStep (dryRun : Bool) (alg : Checksum) (dir : String) (db : DBm)
    (fs : FSm) (g : DatGame) : StepResult :=
  let target := joinPath dir (gameFilename g)
  match fsLookup fs target with
  | none =>
      let sources := buildSources db alg g.roms
      if sources = [] then ⟨fs, db, [], matchedRoms fs target g⟩
      else if dryRun then
        ⟨fs, db, [.log ("Creating " ++ gameFilename g)], matchedRoms fs target g⟩
      else
        let f : ZipFileM := ⟨producedMembers alg g.roms sources, true⟩
        let fs' := fsSet fs target f
        let db' := dbScan db target f.members alg
        ⟨fs', db',
          [.log ("Creating " ++ gameFilename g), .createTarget target,
            .scanIdx target],
          matchedRoms fs' target g⟩
  | some zf =>
      let res := modifySources db alg g.roms target (!zf.valid)
      let sources := res.1
      let rewrite := res.2
      if ¬ rewrite ∧ sources.length = zf.members.length then
        ⟨fs, db, [], matchedRoms fs target g⟩
      else if sources.length = 0 then
        if dryRun then
          ⟨fs, db, [.log ("Deleting " ++ target)], matchedRoms fs target g⟩
        else
          let fs' := fsRemove fs target
          ⟨fs', db, [.log ("Deleting " ++ target), .removePath target],
            matchedRoms fs' target g⟩
      else
        let msg :=
          if sources.length = zf.members.length then "Rebuilding " ++ target
          else "Modifying " ++ target
        if dryRun then ⟨fs, db, [.log msg], matchedRoms fs target g⟩
        else
          let temp := joinPath (joinPath dir "tmp") (gameFilename g)
          let f : ZipFileM := ⟨producedMembers alg g.roms sources, true⟩
          let fs' := fsSet fs target f
          let db' := dbScan (dbInvalidate db target) target f.members alg
          ⟨fs', db',
            [.log msg, .writeTemp temp, .renameOver temp target,
              .invalidateIdx target, .scanIdx target],
            matchedRoms fs' target g⟩

/-- One game as seen from `allGames` plus `gameWorker`: a game on the
missing list is logged, marked fully matched and never reaches the
worker; any other game goes through `gameStep`. -/
def processGame (missing : List String) (dryRun : Bool) (alg : Checksum)
    (dir : String) (db : DBm) (fs : FSm) (g : DatGame) : StepResult :=
  if missing.contains g.name then
    ⟨fs, db, [.log ("Skipping " ++ g.name)], g.roms⟩
  else gameStep dryRun alg dir db fs g

/-- `Synchronizer.Delete`, the orphan sweep: every directory entry that
is neither `<g.name>.zip` for a catalog game nor hidden is removed
(logged first; removal skipped in dry-run). -/
def deleteSweep (dryRun : Bool) (games : List DatGame) (dir : String) :
    List String → FSm → FSm × List Event
  | [], fs => (fs, [])
  | file :: rest, fs =>
      if (games.map gameFilename).contains file ∨ file.startsWith "." then
        deleteSweep dryRun games dir rest fs
      else if dryRun then
        let r := deleteSweep dryRun games dir rest fs
        (r.1, .log ("Deleting " ++ file) :: r.2)
      else
        let r := deleteSweep dryRun games dir rest (fsRemove fs (joinPath dir file))
        (r.1, .log ("Deleting " ++ file) :: .removePath (joinPath dir file) :: r.2)

/-! ## Helper lemmas -/

/-- The accumulating loop of `NewTorrentZipReader` computes the two sums
of the spec's formulas. -/
theorem cdRange_eq (entries : List (String × Nat)) :
    cdRange entries =
      ((entries.map (fun e => 30 + e.1.utf8ByteSize + e.2)).sum,
        (entries.map (fun e => 46 + e.1.utf8ByteSize)).sum) := by
  have h : ∀ (l : List (String × Nat)) (a b : Nat),
      l.foldl
          (fun p f =>
            (p.1 + localFileHeaderLength + f.1.utf8ByteSize + f.2,
              p.2 + centralFileDirectoryLength + f.1.utf8ByteSize))
          (a, b) =
        (a + (l.map (fun e => 30 + e.1.utf8ByteSize + e.2)).sum,
          b + (l.map (fun e => 46 + e.1.utf8ByteSize)).sum) := by
    intro l
    induction l with
    | nil => intro a b; simp
    | cons x xs ih =>
        intro a b
        rw [List.foldl_cons, ih]
        simp only [List.map_cons, List.sum_cons, localFileHeaderLength,
          centralFileDirectoryLength, Prod.mk.injEq]
        constructor <;> omega
  unfold cdRange
  rw [h]
  simp

/-! ## Claim theorems -/

/-- C6: opening a file as a canonical (torrent) zip fails with
`ErrNotTorrentZip` exactly when the archive comment lacks the prefix
`"TORRENTZIPPED-"`; otherwise the central-directory byte range starts at
`Σ (30 + len(name) + compressed_size)` with length
`Σ (46 + len(name))`, is CRC-32'd, and `valid()` holds if and only if the
uppercase hexadecimal of that CRC equals the comment's suffix. -/
theorem torrentzip_validity_characterization (z : RawZip) :
    (newTorrentZipReader z = .error .notTorrentZip ↔
      hasPrefixStr z.comment tzMagic = false) ∧
    (∀ r : TorrentZipReader, newTorrentZipReader z = .ok r →
      (r.valid = true ↔
        z.comment.drop tzMagic.length =
          bytesHexUpper (beBytes (crc32
            ((z.data.drop
                ((z.entries.map (fun e => 30 + e.1.utf8ByteSize + e.2)).sum)).take
              ((z.entries.map (fun e => 46 + e.1.utf8ByteSize)).sum)))))) := by
  unfold newTorrentZipReader
  by_cases h : hasPrefixStr z.comment tzMagic
  · simp only [h, not_true_eq_false, if_false]
    constructor
    · simp
    · intro r hr
      have hval := (Except.ok.injEq _ _).mp hr
      subst hval
      rw [cdRange_eq]
      simp
  · simp only [h, not_false_eq_true, if_true]
    constructor
    · simp [h]
    · intro r hr
      cases hr

/-- C6 witness: a comment-bearing empty archive whose comment suffix is
the CRC of its empty central directory reads back as valid. -/
theorem torrentzip_validity_witness :
    ((⟨true⟩ : TorrentZipReader).valid = true) :=
  ((torrentzip_validity_characterization ⟨[], "TORRENTZIPPED-00000000", []⟩).2
    ⟨true⟩ (by decide)).mpr (by decide)

/-- C7: for a member name with a recognized header extension the reader
consumes the fixed-size prospective header (16 bytes for `.nes`, 64 for
`.lnx`); on a magic match exactly those bytes are excluded from hashing
(logical size = total − header, reported header size = header length); on
a mismatch the buffered bytes are re-prepended and everything is hashed
with header size 0; any other extension is hashed in full. -/
theorem header_reader_behavior (md5H sha1H : List Nat → List Nat)
    (name : String) (data : List Nat) (c : Checksum) :
    (filepathExt name = ".nes" → 16 ≤ data.length →
      (data.take 4 = [78, 69, 83, 0x1a] →
        headerAwareHash md5H sha1H name data c =
          some (applyHash md5H sha1H c (data.drop 16)) ∧
        headerSizeFunction name data = some 16 ∧
        (data.drop 16).length = data.length - 16) ∧
      (data.take 4 ≠ [78, 69, 83, 0x1a] →
        headerAwareHash md5H sha1H name data c =
          some (applyHash md5H sha1H c data) ∧
        headerSizeFunction name data = some 0)) ∧
    (filepathExt name = ".lnx" → 64 ≤ data.length →
      (data.take 4 = [76, 89, 78, 88] →
        headerAwareHash md5H sha1H name data c =
          some (applyHash md5H sha1H c (data.drop 64)) ∧
        headerSizeFunction name data = some 64 ∧
        (data.drop 64).length = data.length - 64) ∧
      (data.take 4 ≠ [76, 89, 78, 88] →
        headerAwareHash md5H sha1H name data c =
          some (applyHash md5H sha1H c data) ∧
        headerSizeFunction name data = some 0)) ∧
    (hasHeader name = false →
      headerAwareHash md5H sha1H name data c =
        some (applyHash md5H sha1H c data) ∧
      headerSizeFunction name data = some 0) := by
  refine ⟨?_, ?_, ?_⟩
  · intro hext hlen
    have hlnx : ¬ filepathExt name = ".lnx" := by rw [hext]; decide
    constructor
    · intro hmagic
      simp [headerAwareHash, headerSizeFunction, nesReader, hext, hlnx,
        hmagic, Nat.not_lt.mpr hlen, List.length_drop]
    · intro hmagic
      simp [headerAwareHash, headerSizeFunction, nesReader, hext, hlnx,
        hmagic, Nat.not_lt.mpr hlen]
  · intro hext hlen
    constructor
    · intro hmagic
      simp [headerAwareHash, headerSizeFunction, lynxReader, hext,
        hmagic, Nat.not_lt.mpr hlen, List.length_drop]
    · intro hmagic
      simp [headerAwareHash, headerSizeFunction, lynxReader, hext,
        hmagic, Nat.not_lt.mpr hlen]
  · intro hno
    have h1 : ¬ filepathExt name = ".lnx" := by
      intro h; simp [hasHeader, h] at hno
    have h2 : ¬ filepathExt name = ".nes" := by
      intro h; simp [hasHeader, h] at hno
    simp [headerAwareHash, headerSizeFunction, h1, h2]

/-- C7 witness: a 17-byte `.nes` stream with the iNES magic is stripped
to its final byte with header size 16, and a plain `.bin` stream is
hashed in full. -/
theorem header_reader_behavior_witness :
    headerAwareHash (fun _ => []) (fun _ => []) "a.nes"
        [78, 69, 83, 0x1a, 0, 0, 0, 0, 0, 0, 0, 0, 0, 0, 0, 0, 7] .crc32 =
      some (beBytes (crc32 [7])) ∧
    headerSizeFunction "a.nes"
        [78, 69, 83, 0x1a, 0, 0, 0, 0, 0, 0, 0, 0, 0, 0, 0, 0, 7] = some 16 ∧
    headerAwareHash (fun _ => []) (fun _ => []) "a.bin" [1, 2] .crc32 =
      some (beBytes (crc32 [1, 2])) := by
  have h1 := ((header_reader_behavior (fun _ => []) (fun _ => []) "a.nes"
    [78, 69, 83, 0x1a, 0, 0, 0, 0, 0, 0, 0, 0, 0, 0, 0, 0, 7] .crc32).1
    (by decide) (by decide)).1 (by decide)
  have h2 := (header_reader_behavior (fun _ => []) (fun _ => []) "a.bin"
    [1, 2] .crc32).2.2 (by decide)
  exact ⟨by simpa using h1.1, h1.2.1, h2.1⟩

/-- C8: if every ROM of every game is marked matched — vacuously
included — the serialized output is empty and standard output receives
zero bytes and no trailing newline. -/
theorem all_matched_serializes_empty (f : DatFile)
    (h : ∀ g ∈ f.games, ∀ r ∈ g.roms, r.matched = true) :
    DatFile.marshal f = "" ∧ stdoutBytes f = "" := by
  have hg : ∀ g ∈ f.games, g.isComplete = true := by
    intro g hgmem
    have : g.roms.filter DatROM.isComplete = g.roms :=
      List.filter_eq_self.mpr (fun r hr => h g hgmem r hr)
    simp [DatGame.isComplete, this]
  have hf : f.isComplete = true := by
    have : f.games.filter DatGame.isComplete = f.games :=
      List.filter_eq_self.mpr hg
    simp [DatFile.isComplete, this]
  have hm : DatFile.marshal f = "" := by
    simp [DatFile.marshal, hf]
  refine ⟨hm, ?_⟩
  simp [stdoutBytes, hm]

/-- C8 witness: a file with one fully matched game and one empty game
serializes to nothing. -/
theorem all_matched_serializes_empty_witness :
    DatFile.marshal
        ⟨⟨"n", "d", "v", "t", "a", "h", "u"⟩,
          [⟨"G", "", "", [⟨"a", 1, "00000000", "", "", true⟩]⟩,
            ⟨"H", "", "", []⟩]⟩ = "" ∧
    stdoutBytes
        ⟨⟨"n", "d", "v", "t", "a", "h", "u"⟩,
          [⟨"G", "", "", [⟨"a", 1, "00000000", "", "", true⟩]⟩,
            ⟨"H", "", "", []⟩]⟩ = "" :=
  all_matched_serializes_empty _ (by decide)

/-- C10: for a Zip member without a header-bearing extension, if the
central-directory CRC-32 field equals the IEEE CRC-32 of the member's
decompressed bytes then the shortcut path of `Checksum` returns exactly
what the streaming path returns: the two code paths agree. -/
theorem crc_shortcut_refines_streaming (md5H sha1H : List Nat → List Nat)
    (m : ZipMember) (h1 : needsDirectChecksum m.name = false)
    (h2 : m.crc = crc32 m.content) :
    zipChecksum md5H sha1H m .crc32 =
      checksumFunction md5H sha1H m.name m.content .crc32 ∧
    zipChecksum md5H sha1H m .crc32 = some (beBytes (crc32 m.content)) := by
  have hne : ¬ filepathExt m.name = ".nes" := by
    intro h; simp [needsDirectChecksum, h] at h1
  have hstream :
      checksumFunction md5H sha1H m.name m.content .crc32 =
        some (beBytes (crc32 m.content)) := by
    simp [checksumFunction, checksumPayload, hne, applyHash]
  have hshort : zipChecksum md5H sha1H m .crc32 = some (beBytes m.crc) := by
    simp [zipChecksum, h1]
  rw [hshort, hstream, h2]
  exact ⟨rfl, rfl⟩

/-- C10 witness: an empty `.bin` member whose stored CRC field is 0
(the CRC-32 of no bytes) yields identical results on both paths. -/
theorem crc_shortcut_refines_streaming_witness :
    zipChecksum (fun _ => []) (fun _ => []) ⟨"a.bin", [], 0⟩ .crc32 =
      some (beBytes (crc32 ([] : List Nat))) :=
  (crc_shortcut_refines_streaming (fun _ => []) (fun _ => [])
    ⟨"a.bin", [], 0⟩ (by decide) (by decide)).2

/-- C5 counterexample: `.lnx` is header-bearing per the spec's rules, yet
`Checksum` on a `.lnx` member takes the central-directory shortcut — here
returning the stored field 1 rendered big-endian, which differs from what
streaming the (empty) content yields — so the claimed "shortcut iff not
header-bearing" equivalence is false on the code. -/
theorem lnx_shortcut_counterexample :
    specHeaderBearing "a.lnx" = true ∧
    zipChecksum (fun _ => []) (fun _ => []) ⟨"a.lnx", [], 1⟩ .crc32 =
      some (beBytes 1) ∧
    checksumFunction (fun _ => []) (fun _ => []) "a.lnx" [] .crc32 =
      some (beBytes (crc32 [])) ∧
    some (beBytes 1) ≠ some (beBytes (crc32 [])) := by
  refine ⟨by decide, by decide, by decide, by decide⟩

/-- C5 as amended: the CRC-32 shortcut is taken exactly for member names
whose extension is not `.nes` — the only extension registered in
`extensionToChecksum`, so in particular `.lnx` members also use the
central-directory value — while `.nes` names and every MD5/SHA-1 request
stream the content through `checksumFunction`. -/
theorem checksum_shortcut_gating (md5H sha1H : List Nat → List Nat)
    (m : ZipMember) (c : Checksum) :
    (c = .crc32 → needsDirectChecksum m.name = false →
      zipChecksum md5H sha1H m c = some (beBytes m.crc)) ∧
    (needsDirectChecksum m.name = true →
      zipChecksum md5H sha1H m c =
        checksumFunction md5H sha1H m.name m.content c) ∧
    (c = .md5 ∨ c = .sha1 →
      zipChecksum md5H sha1H m c =
        checksumFunction md5H sha1H m.name m.content c) ∧
    (needsDirectChecksum m.name = true ↔ filepathExt m.name = ".nes") ∧
    (filepathExt m.name = ".lnx" →
      zipChecksum md5H sha1H m .crc32 = some (beBytes m.crc)) := by
  refine ⟨?_, ?_, ?_, ?_, ?_⟩
  · intro hc hdir
    simp [zipChecksum, hc, hdir]
  · intro hdir
    simp [zipChecksum, hdir]
  · intro hc
    rcases hc with hc | hc <;> subst hc <;> simp [zipChecksum]
  · simp [needsDirectChecksum]
  · intro hext
    have hdir : needsDirectChecksum m.name = false := by
      simp [needsDirectChecksum, hext]
    simp [zipChecksum, hdir]

/-- C5 witness: the amended gating applied to a `.lnx` member with
stored CRC field 7. -/
theorem checksum_shortcut_gating_witness :
    zipChecksum (fun _ => []) (fun _ => []) ⟨"b.lnx", [], 7⟩ .crc32 =
      some (beBytes 7) :=
  (checksum_shortcut_gating (fun _ => []) (fun _ => [])
    ⟨"b.lnx", [], 7⟩ .crc32).2.2.2.2 (by decide)

/-- A catalog ROM whose fingerprint has at least one source in the index. -/
def romSourced (db : DBm) (alg : Checksum) (r : DatROM) : Prop :=
  dbFind db (romChecksum r alg) ≠ []

/-- A catalog ROM one of whose index sources is a self-reference to the
given target archive (`src.Name == reader.Name() && src.File == r.Name`). -/
def romHasSelf (db : DBm) (alg : Checksum) (target : String) (r : DatROM) : Prop :=
  ∃ s ∈ dbFind db (romChecksum r alg), s.name = target ∧ s.file = r.name

/-- The `rewrite` flag after the `rom:` loop holds exactly when it was
set on entry or some sourced ROM lacks a self-reference. -/
theorem modifySourcesAux_snd_iff (db : DBm) (alg : Checksum) (target : String) :
    ∀ (l : List DatROM) (acc : List (String × List Source) × Bool),
      (modifySourcesAux db alg target l acc).2 = true ↔
        acc.2 = true ∨ ∃ r ∈ l, romSourced db alg r ∧ ¬ romHasSelf db alg target r := by
  intro l
  induction l with
  | nil => intro acc; simp [modifySourcesAux]
  | cons r rest ih =>
      intro acc
      by_cases h1 : dbFind db (romChecksum r alg) = []
      · rw [show modifySourcesAux db alg target (r :: rest) acc =
            modifySourcesAux db alg target rest acc by
          simp only [modifySourcesAux]
          rw [if_pos h1]]
        rw [ih]
        constructor
        · rintro (h | ⟨r', hr', hc⟩)
          · exact Or.inl h
          · exact Or.inr ⟨r', List.mem_cons_of_mem _ hr', hc⟩
        · rintro (h | ⟨r', hr', hc⟩)
          · exact Or.inl h
          · rcases List.mem_cons.mp hr' with rfl | hr'
            · exact absurd h1 hc.1
            · exact Or.inr ⟨r', hr', hc⟩
      · by_cases h2 : (dbFind db (romChecksum r alg)).any
            (fun s => s.name = target ∧ s.file = r.name)
        · have hself : romHasSelf db alg target r := by
            simpa [romHasSelf, List.any_eq_true] using h2
          rw [show modifySourcesAux db alg target (r :: rest) acc =
              modifySourcesAux db alg target rest
                (assocSet acc.1 r.name [⟨target, r.name⟩], acc.2) by
            simp only [modifySourcesAux]
            rw [if_neg h1, if_pos h2]]
          rw [ih]
          constructor
          · rintro (h | ⟨r', hr', hc⟩)
            · exact Or.inl h
            · exact Or.inr ⟨r', List.mem_cons_of_mem _ hr', hc⟩
          · rintro (h | ⟨r', hr', hc⟩)
            · exact Or.inl h
            · rcases List.mem_cons.mp hr' with rfl | hr'
              · exact absurd hself hc.2
              · exact Or.inr ⟨r', hr', hc⟩
        · have hnoself : ¬ romHasSelf db alg target r := by
            simpa [romHasSelf, List.any_eq_true] using h2
          rw [show modifySourcesAux db alg target (r :: rest) acc =
              modifySourcesAux db alg target rest
                (assocSet acc.1 r.name (dbFind db (romChecksum r alg)), true) by
            simp only [modifySourcesAux]
            rw [if_neg h1, if_neg h2]]
          rw [ih]
          constructor
          · intro _
            exact Or.inr ⟨r, List.mem_cons_self r rest, h1, hnoself⟩
          · intro _
            simp

/-- The `rewrite` flag of `Synchronizer.modify`. -/
theorem modifySources_rewrite_iff (db : DBm) (alg : Checksum)
    (roms : List DatROM) (target : String) (rw0 : Bool) :
    (modifySources db alg roms target rw0).2 = true ↔
      rw0 = true ∨ ∃ r ∈ roms, romSourced db alg r ∧ ¬ romHasSelf db alg target r := by
  simpa using modifySourcesAux_snd_iff db alg target roms ([], rw0)

/-- C4 as amended: on an existing target, `rewrite` holds iff the file is
not a valid canonical zip or some sourced ROM has no self-reference, and
the action is selected in the code's order — verify first when the
sourced count equals the member count without `rewrite`, then delete on
zero sources, then rebuild on equal counts, else modify.  (The claim's
"delete whenever no ROM has a source" rule is overridden by the earlier
verify check when the existing file also has zero members.) -/
theorem modify_decision_characterization (zf : ZipFileM) (db : DBm)
    (alg : Checksum) (roms : List DatROM) (target : String) :
    ((modifySources db alg roms target (!zf.valid)).2 = true ↔
      zf.valid = false ∨
        ∃ r ∈ roms, romSourced db alg r ∧ ¬ romHasSelf db alg target r) ∧
    ((modifySources db alg roms target (!zf.valid)).2 = false ∧
        (modifySources db alg roms target (!zf.valid)).1.length =
          zf.members.length →
      modifyDecision (modifySources db alg roms target (!zf.valid)).2
          (modifySources db alg roms target (!zf.valid)).1.length
          zf.members.length = .verify) ∧
    (¬ ((modifySources db alg roms target (!zf.valid)).2 = false ∧
          (modifySources db alg roms target (!zf.valid)).1.length =
            zf.members.length) →
      ((modifySources db alg roms target (!zf.valid)).1.length = 0 →
        modifyDecision (modifySources db alg roms target (!zf.valid)).2
            (modifySources db alg roms target (!zf.valid)).1.length
            zf.members.length = .delete) ∧
      ((modifySources db alg roms target (!zf.valid)).1.length ≠ 0 →
        ((modifySources db alg roms target (!zf.valid)).1.length =
            zf.members.length →
          modifyDecision (modifySources db alg roms target (!zf.valid)).2
              (modifySources db alg roms target (!zf.valid)).1.length
              zf.members.length = .rebuild) ∧
        ((modifySources db alg roms target (!zf.valid)).1.length ≠
            zf.members.length →
          modifyDecision (modifySources db alg roms target (!zf.valid)).2
              (modifySources db alg roms target (!zf.valid)).1.length
              zf.members.length = .modifyTarget))) := by
  refine ⟨?_, ?_, ?_⟩
  · rw [modifySources_rewrite_iff]
    constructor
    · rintro (h | h)
      · left; simpa using h
      · right; exact h
    · rintro (h | h)
      · left; simpa using h
      · right; exact h
  · rintro ⟨h1, h2⟩
    simp [modifyDecision, h1, h2]
  · intro h
    constructor
    · intro h0
      by_cases ht : (modifySources db alg roms target (!zf.valid)).2 = true
      · simp [modifyDecision, h0, ht]
      · have hf : (modifySources db alg roms target (!zf.valid)).2 = false := by
          simpa using ht
        have hne : ¬ ((0 : Nat) = zf.members.length) := by
          intro h0'
          exact h ⟨hf, by rw [h0, ← h0']⟩
        simp [modifyDecision, h0, hf, hne]
    · intro h0
      constructor
      · intro hl
        have ht : (modifySources db alg roms target (!zf.valid)).2 = true := by
          by_cases ht : (modifySources db alg roms target (!zf.valid)).2 = true
          · exact ht
          · have hf : (modifySources db alg roms target (!zf.valid)).2 = false := by
              simpa using ht
            exact absurd ⟨hf, hl⟩ h
        unfold modifyDecision
        rw [if_neg (fun hc => hc.1 ht), if_neg h0, if_pos hl]
      · intro hl
        unfold modifyDecision
        rw [if_neg (fun hc => hl hc.2), if_neg h0, if_neg hl]

/-- C4 witness: a target holding one member that self-sources its one
catalog ROM is verified in place. -/
theorem modify_decision_characterization_witness :
    modifyDecision
        (modifySources [(⟨.crc32, "aaaa", 10⟩, [⟨"t/G.zip", "a"⟩])] .crc32
            [⟨"a", 10, "AAAA", "", "", false⟩] "t/G.zip"
            (!(⟨[⟨"a", "aaaa", 10⟩], true⟩ : ZipFileM).valid)).2
        (modifySources [(⟨.crc32, "aaaa", 10⟩, [⟨"t/G.zip", "a"⟩])] .crc32
            [⟨"a", 10, "AAAA", "", "", false⟩] "t/G.zip"
            (!(⟨[⟨"a", "aaaa", 10⟩], true⟩ : ZipFileM).valid)).1.length
        (⟨[⟨"a", "aaaa", 10⟩], true⟩ : ZipFileM).members.length = .verify :=
  (modify_decision_characterization ⟨[⟨"a", "aaaa", 10⟩], true⟩
    [(⟨.crc32, "aaaa", 10⟩, [⟨"t/G.zip", "a"⟩])] .crc32
    [⟨"a", 10, "AAAA", "", "", false⟩] "t/G.zip").2.1 ⟨by decide, by decide⟩

/-- C4 counterexample: a game with no sourced ROMs and an existing valid
canonical zip with no members — the claim's first rule demands deletion,
but the code's earlier verify check fires and the run leaves the file
untouched (no events, unchanged directory). -/
theorem modify_empty_corner_counterexample :
    (modifySources [] .crc32 [] "t/G.zip"
        (!(⟨[], true⟩ : ZipFileM).valid)).1.length = 0 ∧
    modifyDecision
        (modifySources [] .crc32 [] "t/G.zip"
            (!(⟨[], true⟩ : ZipFileM).valid)).2
        (modifySources [] .crc32 [] "t/G.zip"
            (!(⟨[], true⟩ : ZipFileM).valid)).1.length
        (⟨[], true⟩ : ZipFileM).members.length = .verify ∧
    (Decision.verify ≠ Decision.delete) ∧
    (gameStep false .crc32 "t" [] [("t/G.zip", ⟨[], true⟩)]
        ⟨"G", "", "", []⟩).events = [] ∧
    (gameStep false .crc32 "t" [] [("t/G.zip", ⟨[], true⟩)]
        ⟨"G", "", "", []⟩).fs = [("t/G.zip", ⟨[], true⟩)] := by
  refine ⟨by decide, by decide, by decide, by decide, by decide⟩

/-- The temporary file `<dir>/tmp/<name>.zip` is never the target path
`<dir>/<name>.zip`. -/
theorem temp_ne_target (dir fn : String) :
    joinPath (joinPath dir "tmp") fn ≠ joinPath dir fn := by
  intro h
  have hlen := congrArg String.length h
  have h1 : ("/" : String).length = 1 := by decide
  have h3 : ("tmp" : String).length = 3 := by decide
  simp only [joinPath, String.length_append, h1, h3] at hlen
  omega

/-- C1 as amended: a non-dry run of the per-game reconciler produces one
of exactly these event traces: nothing (skip / verify), a create that
opens the canonical-zip writer directly at the target path and rescans it
(no temporary rename and no invalidation), a delete, or a
modify / rebuild that writes a fresh temporary path inside the target
directory (distinct from the target), renames it over the target after
the write, invalidates the target in the index, and rescans it — in that
order. -/
theorem reconciler_write_event_shapes (alg : Checksum) (dir : String)
    (db : DBm) (fs : FSm) (g : DatGame) :
    (gameStep false alg dir db fs g).events = [] ∨
    (gameStep false alg dir db fs g).events =
      [.log ("Creating " ++ gameFilename g),
        .createTarget (joinPath dir (gameFilename g)),
        .scanIdx (joinPath dir (gameFilename g))] ∨
    (gameStep false alg dir db fs g).events =
      [.log ("Deleting " ++ joinPath dir (gameFilename g)),
        .removePath (joinPath dir (gameFilename g))] ∨
    (((gameStep false alg dir db fs g).events =
        [.log ("Rebuilding " ++ joinPath dir (gameFilename g)),
          .writeTemp (joinPath (joinPath dir "tmp") (gameFilename g)),
          .renameOver (joinPath (joinPath dir "tmp") (gameFilename g))
            (joinPath dir (gameFilename g)),
          .invalidateIdx (joinPath dir (gameFilename g)),
          .scanIdx (joinPath dir (gameFilename g))] ∨
      (gameStep false alg dir db fs g).events =
        [.log ("Modifying " ++ joinPath dir (gameFilename g)),
          .writeTemp (joinPath (joinPath dir "tmp") (gameFilename g)),
          .renameOver (joinPath (joinPath dir "tmp") (gameFilename g))
            (joinPath dir (gameFilename g)),
          .invalidateIdx (joinPath dir (gameFilename g)),
          .scanIdx (joinPath dir (gameFilename g))]) ∧
      joinPath (joinPath dir "tmp") (gameFilename g) ≠
        joinPath dir (gameFilename g)) := by
  rcases hfsl : fsLookup fs (joinPath dir (gameFilename g)) with _ | zf
  · by_cases hs : buildSources db alg g.roms = []
    · left
      simp [gameStep, hfsl, hs]
    · right; left
      simp [gameStep, hfsl, hs]
  · simp only [gameStep, hfsl, Bool.false_eq_true, if_false]
    split_ifs with h1 h2 h3
    · left; rfl
    · right; right; left; rfl
    · right; right; right
      exact ⟨Or.inl rfl, temp_ne_target dir (gameFilename g)⟩
    · right; right; right
      exact ⟨Or.inr rfl, temp_ne_target dir (gameFilename g)⟩

/-- C1 counterexample: in the create path (target absent, one sourced
ROM) the code emits no temporary write, no rename and no index
invalidation — it opens the writer directly at the target path — so the
claimed temp-write / rename / invalidate sequence does not happen for
created targets. -/
theorem create_writes_directly_counterexample :
    (gameStep false .crc32 "t"
        [(⟨.crc32, "aaaa", 10⟩, [⟨"s.zip", "a"⟩])] []
        ⟨"G", "", "", [⟨"a", 10, "AAAA", "", "", false⟩]⟩).events =
      [.log "Creating G.zip", .createTarget "t/G.zip", .scanIdx "t/G.zip"] ∧
    ((gameStep false .crc32 "t"
          [(⟨.crc32, "aaaa", 10⟩, [⟨"s.zip", "a"⟩])] []
          ⟨"G", "", "", [⟨"a", 10, "AAAA", "", "", false⟩]⟩).events.all
        (fun e =>
          match e with
          | .writeTemp _ => false
          | .renameOver _ _ => false
          | .invalidateIdx _ => false
          | _ => true)) = true := by
  refine ⟨by decide, by decide⟩

/-- The dry-run orphan sweep leaves the directory untouched. -/
theorem deleteSweep_dry_fs (games : List DatGame) (dir : String) :
    ∀ (names : List String) (fs : FSm),
      (deleteSweep true games dir names fs).1 = fs := by
  intro names
  induction names with
  | nil => intro fs; rfl
  | cons file rest ih =>
      intro fs
      by_cases h : ((games.map gameFilename).contains file = true ∨
          file.startsWith "." = true)
      · simp only [deleteSweep]
        rw [if_pos h]
        exact ih fs
      · simp only [deleteSweep]
        rw [if_neg h, if_pos trivial]
        exact ih fs

/-- The events of the orphan sweep do not depend on the directory state. -/
theorem deleteSweep_events_const (d : Bool) (games : List DatGame) (dir : String) :
    ∀ (names : List String) (fs fs' : FSm),
      (deleteSweep d games dir names fs).2 = (deleteSweep d games dir names fs').2 := by
  intro names
  induction names with
  | nil => intro fs fs'; rfl
  | cons file rest ih =>
      intro fs fs'
      by_cases h : ((games.map gameFilename).contains file = true ∨
          file.startsWith "." = true)
      · simp only [deleteSweep]
        rw [if_pos h, if_pos h]
        exact ih fs fs'
      · by_cases hd : d = true
        · subst hd
          simp only [deleteSweep]
          rw [if_neg h, if_neg h, if_pos trivial, if_pos trivial]
          simp [ih fs fs']
        · have hd' : d = false := by simpa using hd
          subst hd'
          simp only [deleteSweep]
          rw [if_neg h, if_neg h, if_neg (show ¬ (false = true) by decide), if_neg (show ¬ (false = true) by decide)]
          simp [ih (fsRemove fs (joinPath dir file)) (fsRemove fs' (joinPath dir file))]

/-- C9: in dry-run mode neither the per-game reconciler (create, modify,
rebuild, delete) nor the orphan sweep changes the target directory or the
content index, while exactly the log lines of the corresponding real run
are still emitted. -/
theorem dry_run_no_mutations (alg : Checksum) (dir : String) (db : DBm)
    (fs : FSm) (g : DatGame) (games : List DatGame) (names : List String) :
    (gameStep true alg dir db fs g).fs = fs ∧
    (gameStep true alg dir db fs g).db = db ∧
    (gameStep true alg dir db fs g).events =
      (gameStep false alg dir db fs g).events.filter Event.isLog ∧
    (deleteSweep true games dir names fs).1 = fs ∧
    (deleteSweep true games dir names fs).2 =
      (deleteSweep false games dir names fs).2.filter Event.isLog := by
  refine ⟨?_, ?_, ?_, deleteSweep_dry_fs games dir names fs, ?_⟩
  · rcases hfsl : fsLookup fs (joinPath dir (gameFilename g)) with _ | zf
    · by_cases hs : buildSources db alg g.roms = []
      · simp [gameStep, hfsl, hs]
      · simp [gameStep, hfsl, hs]
    · simp only [gameStep, hfsl, Bool.false_eq_true, if_false, if_true]
      split_ifs <;> rfl
  · rcases hfsl : fsLookup fs (joinPath dir (gameFilename g)) with _ | zf
    · by_cases hs : buildSources db alg g.roms = []
      · simp [gameStep, hfsl, hs]
      · simp [gameStep, hfsl, hs]
    · simp only [gameStep, hfsl, Bool.false_eq_true, if_false, if_true]
      split_ifs <;> rfl
  · rcases hfsl : fsLookup fs (joinPath dir (gameFilename g)) with _ | zf
    · by_cases hs : buildSources db alg g.roms = []
      · simp [gameStep, hfsl, hs]
      · simp [gameStep, hfsl, hs, Event.isLog]
    · simp only [gameStep, hfsl, Bool.false_eq_true, if_false, if_true]
      split_ifs <;> simp [Event.isLog]
  · induction names generalizing fs with
    | nil => rfl
    | cons file rest ih =>
        by_cases h : ((games.map gameFilename).contains file = true ∨
            file.startsWith "." = true)
        · simp only [deleteSweep]
          rw [if_pos h, if_pos h]
          exact ih fs
        · simp only [deleteSweep]
          rw [if_neg h, if_neg h, if_pos trivial, if_neg (show ¬ (false = true) by decide)]
          have hconst := deleteSweep_events_const true games dir rest fs
            (fsRemove fs (joinPath dir file))
          simp only [List.filter, Event.isLog]
          rw [hconst]
          exact congrArg _ (ih (fsRemove fs (joinPath dir file)))

/-- The invariant the selector's collapse loop preserves between the
original candidate map and the reduced one: same ROM keys in the same
order, non-emptiness preserved, and every surviving candidate was among
the original candidates. -/
def selR (p q : String × List Source) : Prop :=
  p.1 = q.1 ∧ (p.2 ≠ [] → q.2 ≠ []) ∧ ∀ s ∈ q.2, s ∈ p.2

/-- `selR` is transitive. -/
theorem selR_trans {a b c : String × List Source} (h1 : selR a b)
    (h2 : selR b c) : selR a c :=
  ⟨h1.1.trans h2.1, fun hne => h2.2.1 (h1.2.1 hne),
    fun s hs => h1.2.2 s (h2.2.2 s hs)⟩

/-- `List.Forall₂` composes along a transitive relation. -/
theorem forall2_selR_trans :
    ∀ {l₁ l₂ l₃ : List (String × List Source)},
      List.Forall₂ selR l₁ l₂ → List.Forall₂ selR l₂ l₃ →
        List.Forall₂ selR l₁ l₃ := by
  intro l₁ l₂ l₃ h1
  induction h1 generalizing l₃ with
  | nil =>
      intro h2
      cases h2
      exact .nil
  | cons hab htail ih =>
      intro h2
      cases h2 with
      | cons hbc htail2 => exact .cons (selR_trans hab hbc) (ih htail2)

/-- One collapse step relates to the original map by `selR`. -/
theorem collapse_selR (nm : String) (ss : List (String × List Source)) :
    List.Forall₂ selR ss (collapseSources nm ss) := by
  unfold collapseSources
  rw [List.forall₂_map_right_iff]
  rw [List.forall₂_same]
  intro p _
  by_cases hlen : p.2.length > 1
  · rcases hfind : p.2.find? (fun s => s.name = nm) with _ | s
    · simp only [hlen, if_pos, hfind]
      exact ⟨rfl, fun h => h, fun s hs => hs⟩
    · simp only [hlen, if_pos, hfind]
      refine ⟨rfl, fun _ => by simp, ?_⟩
      intro s' hs'
      rcases List.mem_singleton.mp hs' with rfl
      exact List.mem_of_find?_eq_some hfind
  · simp only [if_neg hlen]
    exact ⟨rfl, fun h => h, fun s hs => hs⟩

/-- The whole reduction loop relates to the original map by `selR`. -/
theorem reduce_selR (n : Nat) :
    ∀ ss : List (String × List Source),
      List.Forall₂ selR ss (reduceSources n ss) := by
  induction n with
  | zero =>
      intro ss
      exact (List.forall₂_same).mpr (fun p _ => ⟨rfl, fun h => h, fun s hs => hs⟩)
  | succ n ih =>
      intro ss
      unfold reduceSources
      by_cases h : popularSource ss = ""
      · rw [if_pos h]
        exact (List.forall₂_same).mpr (fun p _ => ⟨rfl, fun h => h, fun s hs => hs⟩)
      · rw [if_neg h]
        exact forall2_selR_trans (collapse_selR (popularSource ss) ss)
          (ih (collapseSources (popularSource ss) ss))

/-- Extracting the surviving head of every (still non-empty) candidate
list yields a pointwise-legitimate pick. -/
theorem picks_mem :
    ∀ {l₁ l₂ : List (String × List Source)}, List.Forall₂ selR l₁ l₂ →
      (∀ p ∈ l₁, p.2 ≠ []) →
      List.Forall₂ (fun (p : String × List Source) s => s ∈ p.2) l₁
        (l₂.filterMap (fun p => p.2.head?)) := by
  intro l₁ l₂ h
  induction h with
  | nil =>
      intro _
      exact .nil
  | @cons p q l₁' l₂' hpq htail ih =>
      intro hne
      have hq : q.2 ≠ [] := hpq.2.1 (hne p (List.mem_cons_self p l₁'))
      rcases hq2 : q.2 with _ | ⟨s, t⟩
      · exact absurd hq2 hq
      · have hhead : q.2.head? = some s := by rw [hq2]; rfl
        rw [List.filterMap_cons]
        simp only [hhead]
        refine .cons ?_ (ih (fun p' hp' => hne p' (List.mem_cons_of_mem _ hp')))
        exact hpq.2.2 s (by rw [hq2]; exact List.mem_cons_self s t)

/-- C2 as amended: the final selection produced by the greedy selector is
itself an independent per-ROM choice — every surviving pick comes from
that ROM's original candidate list — so its distinct-archive count equals
the count of some independent choice (and is therefore between the best
and the worst choice); it is NOT in general ≤ the count of every
independent choice. -/
theorem greedy_selection_is_a_choice (ss : List (String × List Source))
    (h : ∀ p ∈ ss, p.2 ≠ []) :
    List.Forall₂ (fun (p : String × List Source) s => s ∈ p.2) ss
      (selectionPicks ss) ∧
    ∃ picks : List Source,
      List.Forall₂ (fun (p : String × List Source) s => s ∈ p.2) ss picks ∧
        distinctArchives (selectionPicks ss) = distinctArchives picks := by
  have h2 := picks_mem (reduce_selR ss.length ss) h
  exact ⟨h2, selectionPicks ss, h2, rfl⟩

/-- C2 witness: the amended statement applied to a one-ROM family. -/
theorem greedy_selection_is_a_choice_witness :
    List.Forall₂ (fun (p : String × List Source) s => s ∈ p.2)
      [("r", [⟨"A", "r"⟩])] (selectionPicks [("r", [⟨"A", "r"⟩])]) :=
  (greedy_selection_is_a_choice [("r", [⟨"A", "r"⟩])] (by decide)).1

/-- The six-ROM family on which the greedy selector is suboptimal:
archive C covers the four multi-option ROMs, but archives A and B
(forced anyway by the single-option ROMs r3 and r6) already cover
everything. -/
def exLists : List (String × List Source) :=
  [("r1", [⟨"A", "r1"⟩, ⟨"C", "r1"⟩]),
    ("r2", [⟨"A", "r2"⟩, ⟨"C", "r2"⟩]),
    ("r3", [⟨"A", "r3"⟩]),
    ("r4", [⟨"B", "r4"⟩, ⟨"C", "r4"⟩]),
    ("r5", [⟨"B", "r5"⟩, ⟨"C", "r5"⟩]),
    ("r6", [⟨"B", "r6"⟩])]

/-- An independent per-ROM choice over `exLists` using only archives A
and B. -/
def exPicks : List Source :=
  [⟨"A", "r1"⟩, ⟨"A", "r2"⟩, ⟨"A", "r3"⟩, ⟨"B", "r4"⟩, ⟨"B", "r5"⟩, ⟨"B", "r6"⟩]

/-- C2 counterexample: the greedy selection over `exLists` uses three
distinct archives (C plus the forced A and B) while the independent
choice `exPicks` uses two, so the claimed lower bound over every
independent choice is false. -/
theorem greedy_not_optimal_counterexample :
    List.Forall₂ (fun (p : String × List Source) s => s ∈ p.2) exLists exPicks ∧
    distinctArchives (selectionPicks exLists) = 3 ∧
    distinctArchives exPicks = 2 ∧
    ¬ (distinctArchives (selectionPicks exLists) ≤ distinctArchives exPicks) := by
  refine ⟨?_, by decide, by decide, by decide⟩
  refine .cons (by decide) (.cons (by decide) (.cons (by decide)
    (.cons (by decide) (.cons (by decide) (.cons (by decide) .nil)))))

/-- Writing a file makes it visible at its path. -/
theorem fsLookup_fsSet_self :
    ∀ (fs : FSm) (p : String) (f : ZipFileM), fsLookup (fsSet fs p f) p = some f := by
  intro fs p f
  induction fs with
  | nil => simp [fsSet, fsLookup]
  | cons q rest ih =>
      by_cases h : q.1 = p
      · simp [fsSet, fsLookup, h]
      · simp [fsSet, fsLookup, h, ih]

/-- Removing a file makes its path unresolvable. -/
theorem fsLookup_fsRemove_self :
    ∀ (fs : FSm) (p : String), fsLookup (fsRemove fs p) p = none := by
  intro fs p
  induction fs with
  | nil => rfl
  | cons q rest ih =>
      by_cases h : q.1 = p
      · have hstep : fsRemove (q :: rest) p = fsRemove rest p := by
          simp [fsRemove, List.filter_cons, h]
        rw [hstep, ih]
      · have hstep : fsRemove (q :: rest) p = q :: fsRemove rest p := by
          simp [fsRemove, List.filter_cons, h]
        rw [hstep]
        simp [fsLookup, h, ih]

/-- Keys after a Go map assignment: an old key or the assigned one. -/
theorem mem_keys_assocSet :
    ∀ (m : List (String × List Source)) (k : String) (v : List Source)
      (x : String), x ∈ (assocSet m k v).map Prod.fst →
        x ∈ m.map Prod.fst ∨ x = k := by
  intro m k v x
  induction m with
  | nil =>
      intro hx
      simp [assocSet] at hx
      exact Or.inr hx
  | cons q rest ih =>
      intro hx
      by_cases h : q.1 = k
      · rw [show assocSet (q :: rest) k v = (q.1, v) :: rest by
            simp [assocSet, h]] at hx
        rcases List.mem_map.mp hx with ⟨p, hp, rfl⟩
        rcases List.mem_cons.mp hp with rfl | hp
        · exact Or.inl (by simp)
        · exact Or.inl (List.mem_map_of_mem Prod.fst (List.mem_cons_of_mem _ hp))
      · rw [show assocSet (q :: rest) k v = q :: assocSet rest k v by
            simp [assocSet, h]] at hx
        rcases List.mem_map.mp hx with ⟨p, hp, rfl⟩
        rcases List.mem_cons.mp hp with rfl | hp
        · exact Or.inl (by simp)
        · rcases ih (List.mem_map_of_mem Prod.fst hp) with h' | h'
          · exact Or.inl (List.mem_cons_of_mem _ h')
          · exact Or.inr h'

/-- A Go map assignment keeps the key list duplicate-free. -/
theorem assocSet_keys_nodup :
    ∀ (m : List (String × List Source)) (k : String) (v : List Source),
      (m.map Prod.fst).Nodup → ((assocSet m k v).map Prod.fst).Nodup := by
  intro m k v
  induction m with
  | nil =>
      intro _
      simp [assocSet]
  | cons q rest ih =>
      intro hm
      rw [List.map_cons, List.nodup_cons] at hm
      by_cases h : q.1 = k
      · rw [show assocSet (q :: rest) k v = (q.1, v) :: rest by
            simp [assocSet, h]]
        rw [List.map_cons, List.nodup_cons]
        exact ⟨hm.1, hm.2⟩
      · rw [show assocSet (q :: rest) k v = q :: assocSet rest k v by
            simp [assocSet, h]]
        rw [List.map_cons, List.nodup_cons]
        refine ⟨?_, ih hm.2⟩
        intro hq
        rcases mem_keys_assocSet rest k v q.1 hq with h' | h'
        · exact hm.1 h'
        · exact h h'

/-- `assocFind` succeeds exactly on present keys. -/
theorem assocFind_isSome_iff :
    ∀ (m : List (String × List Source)) (k : String),
      (assocFind m k).isSome ↔ k ∈ m.map Prod.fst := by
  intro m k
  induction m with
  | nil => simp [assocFind]
  | cons q rest ih =>
      by_cases h : q.1 = k
      · simp [assocFind, h]
      · simp only [assocFind, h, if_false, List.map_cons, List.mem_cons]
        rw [ih]
        constructor
        · intro h'; exact Or.inr h'
        · rintro (h' | h')
          · exact absurd h'.symm h
          · exact h'

/-- Every key of the map built by `Synchronizer.modify`'s loop comes
from a sourced catalog ROM (or was already present). -/
theorem modifySourcesAux_keys_from (db : DBm) (alg : Checksum) (target : String) :
    ∀ (l : List DatROM) (acc : List (String × List Source) × Bool) (x : String),
      x ∈ (modifySourcesAux db alg target l acc).1.map Prod.fst →
        x ∈ acc.1.map Prod.fst ∨ ∃ r ∈ l, r.name = x ∧ romSourced db alg r := by
  intro l
  induction l with
  | nil =>
      intro acc x hx
      exact Or.inl hx
  | cons r rest ih =>
      intro acc x hx
      by_cases h1 : dbFind db (romChecksum r alg) = []
      · rw [show modifySourcesAux db alg target (r :: rest) acc =
            modifySourcesAux db alg target rest acc by
          simp only [modifySourcesAux]; rw [if_pos h1]] at hx
        rcases ih acc x hx with h | ⟨r', hr', hn, hs⟩
        · exact Or.inl h
        · exact Or.inr ⟨r', List.mem_cons_of_mem _ hr', hn, hs⟩
      · by_cases h2 : (dbFind db (romChecksum r alg)).any
            (fun s => s.name = target ∧ s.file = r.name)
        · rw [show modifySourcesAux db alg target (r :: rest) acc =
              modifySourcesAux db alg target rest
                (assocSet acc.1 r.name [⟨target, r.name⟩], acc.2) by
            simp only [modifySourcesAux]; rw [if_neg h1, if_pos h2]] at hx
          rcases ih _ x hx with h | ⟨r', hr', hn, hs⟩
          · rcases mem_keys_assocSet acc.1 r.name _ x h with h' | rfl
            · exact Or.inl h'
            · exact Or.inr ⟨r, List.mem_cons_self r rest, rfl, h1⟩
          · exact Or.inr ⟨r', List.mem_cons_of_mem _ hr', hn, hs⟩
        · rw [show modifySourcesAux db alg target (r :: rest) acc =
              modifySourcesAux db alg target rest
                (assocSet acc.1 r.name (dbFind db (romChecksum r alg)), true) by
            simp only [modifySourcesAux]; rw [if_neg h1, if_neg h2]] at hx
          rcases ih _ x hx with h | ⟨r', hr', hn, hs⟩
          · rcases mem_keys_assocSet acc.1 r.name _ x h with h' | rfl
            · exact Or.inl h'
            · exact Or.inr ⟨r, List.mem_cons_self r rest, rfl, h1⟩
          · exact Or.inr ⟨r', List.mem_cons_of_mem _ hr', hn, hs⟩

/-- The map built by `Synchronizer.modify`'s loop has duplicate-free
keys. -/
theorem modifySourcesAux_keys_nodup (db : DBm) (alg : Checksum) (target : String) :
    ∀ (l : List DatROM) (acc : List (String × List Source) × Bool),
      (acc.1.map Prod.fst).Nodup →
        ((modifySourcesAux db alg target l acc).1.map Prod.fst).Nodup := by
  intro l
  induction l with
  | nil => intro acc h; exact h
  | cons r rest ih =>
      intro acc h
      by_cases h1 : dbFind db (romChecksum r alg) = []
      · rw [show modifySourcesAux db alg target (r :: rest) acc =
            modifySourcesAux db alg target rest acc by
          simp only [modifySourcesAux]; rw [if_pos h1]]
        exact ih acc h
      · by_cases h2 : (dbFind db (romChecksum r alg)).any
            (fun s => s.name = target ∧ s.file = r.name)
        · rw [show modifySourcesAux db alg target (r :: rest) acc =
              modifySourcesAux db alg target rest
                (assocSet acc.1 r.name [⟨target, r.name⟩], acc.2) by
            simp only [modifySourcesAux]; rw [if_neg h1, if_pos h2]]
          exact ih _ (assocSet_keys_nodup acc.1 r.name _ h)
        · rw [show modifySourcesAux db alg target (r :: rest) acc =
              modifySourcesAux db alg target rest
                (assocSet acc.1 r.name (dbFind db (romChecksum r alg)), true) by
            simp only [modifySourcesAux]; rw [if_neg h1, if_neg h2]]
          exact ih _ (assocSet_keys_nodup acc.1 r.name _ h)

/-- Every key of the map built by `Synchronizer.create` comes from a
sourced catalog ROM (or was already present). -/
theorem buildSourcesAux_keys_from (db : DBm) (alg : Checksum) :
    ∀ (l : List DatROM) (acc : List (String × List Source)) (x : String),
      x ∈ (buildSourcesAux db alg l acc).map Prod.fst →
        x ∈ acc.map Prod.fst ∨ ∃ r ∈ l, r.name = x ∧ romSourced db alg r := by
  intro l
  induction l with
  | nil =>
      intro acc x hx
      exact Or.inl hx
  | cons r rest ih =>
      intro acc x hx
      by_cases h1 : dbFind db (romChecksum r alg) = []
      · rw [show buildSourcesAux db alg (r :: rest) acc =
            buildSourcesAux db alg rest acc by
          simp [buildSourcesAux, h1]] at hx
        rcases ih acc x hx with h | ⟨r', hr', hn, hs⟩
        · exact Or.inl h
        · exact Or.inr ⟨r', List.mem_cons_of_mem _ hr', hn, hs⟩
      · rw [show buildSourcesAux db alg (r :: rest) acc =
            buildSourcesAux db alg rest
              (assocSet acc r.name (dbFind db (romChecksum r alg))) by
          simp [buildSourcesAux, h1]] at hx
        rcases ih _ x hx with h | ⟨r', hr', hn, hs⟩
        · rcases mem_keys_assocSet acc r.name _ x h with h' | rfl
          · exact Or.inl h'
          · exact Or.inr ⟨r, List.mem_cons_self r rest, rfl, h1⟩
        · exact Or.inr ⟨r', List.mem_cons_of_mem _ hr', hn, hs⟩

/-- A name occurring among the members `transfer` writes belongs to a
catalog ROM with a surviving source. -/
theorem mem_producedMembers_names (alg : Checksum) (roms : List DatROM)
    (sources : List (String × List Source)) (x : String)
    (hx : x ∈ (producedMembers alg roms sources).map Member.name) :
    ∃ r ∈ roms, r.name = x ∧ (assocFind sources r.name).isSome := by
  rcases List.mem_map.mp hx with ⟨m, hm, rfl⟩
  rcases List.mem_filterMap.mp hm with ⟨r, hr, heq⟩
  by_cases hsome : (assocFind sources r.name).isSome
  · rw [if_pos hsome] at heq
    cases heq
    exact ⟨r, hr, rfl, hsome⟩
  · rw [if_neg hsome] at heq
    cases heq

/-- C3 counterexample: a dry run over an existing target whose member
`a` merely shares its name with catalog ROM `a` — the index is empty, so
no fingerprint is satisfied and the game is not missing, yet the ROM is
marked matched (the modify path logged a would-be delete and the
matching pass then ran over the untouched file). -/
theorem dry_run_name_matching_counterexample :
    (⟨"a", 10, "aaaa", "", "", false⟩ : DatROM) ∈
      (processGame [] true .crc32 "t" []
          [("t/G.zip", ⟨[⟨"a", "bbbb", 10⟩], true⟩)]
          ⟨"G", "", "", [⟨"a", 10, "aaaa", "", "", false⟩]⟩).matched ∧
    dbFind [] (romChecksum ⟨"a", 10, "aaaa", "", "", false⟩ .crc32) = [] ∧
    ([] : List String).contains "G" = false ∧
    (processGame [] true .crc32 "t" []
        [("t/G.zip", ⟨[⟨"a", "bbbb", 10⟩], true⟩)]
        ⟨"G", "", "", [⟨"a", 10, "aaaa", "", "", false⟩]⟩).events =
      [.log "Deleting t/G.zip"] := by
  refine ⟨by decide, by decide, by decide, by decide⟩

/-- C3 as amended: after a NON-dry run of one game, provided ROM names
within the game are duplicate-free and any pre-existing target file is
consistent with the index (its names are duplicate-free and every index
entry pointing at the target names an actual member — the state the scan
phase establishes), every ROM marked matched either belongs to a game in
the missing set, or had its fingerprint satisfied by some indexed source
AND has its member name present in the target archive the run left
behind.  (In dry-run mode the name-based matching pass can mark ROMs
against a stale unmodified target, as the counterexample shows.) -/
theorem matched_implies_fingerprint_or_missing (missing : List String)
    (alg : Checksum) (dir : String) (db : DBm) (fs : FSm) (g : DatGame)
    (hnodup : (g.roms.map DatROM.name).Nodup)
    (hscan : ∀ zf, fsLookup fs (joinPath dir (gameFilename g)) = some zf →
      (zf.members.map Member.name).Nodup ∧
      ∀ k s, s ∈ dbFind db k → s.name = joinPath dir (gameFilename g) →
        ∃ m ∈ zf.members, m.name = s.file) :
    ∀ r ∈ (processGame missing false alg dir db fs g).matched,
      missing.contains g.name = true ∨
      (dbFind db (romChecksum r alg) ≠ [] ∧
        ∃ zf, fsLookup (processGame missing false alg dir db fs g).fs
            (joinPath dir (gameFilename g)) = some zf ∧
          r.name ∈ zf.members.map Member.name) := by
  intro r hr
  by_cases hmiss : missing.contains g.name = true
  · exact Or.inl hmiss
  · right
    have hpg : processGame missing false alg dir db fs g =
        gameStep false alg dir db fs g := by
      simp only [processGame]
      rw [if_neg hmiss]
    rw [hpg] at hr ⊢
    rcases hfsl : fsLookup fs (joinPath dir (gameFilename g)) with _ | zf
    · by_cases hs : buildSources db alg g.roms = []
      · rw [show gameStep false alg dir db fs g =
            ⟨fs, db, [], matchedRoms fs (joinPath dir (gameFilename g)) g⟩ by
          simp [gameStep, hfsl, hs]] at hr
        simp only [matchedRoms, hfsl] at hr
        cases hr
      · rw [show gameStep false alg dir db fs g =
            ⟨fsSet fs (joinPath dir (gameFilename g))
                ⟨producedMembers alg g.roms (buildSources db alg g.roms), true⟩,
              dbScan db (joinPath dir (gameFilename g))
                (producedMembers alg g.roms (buildSources db alg g.roms)) alg,
              [.log ("Creating " ++ gameFilename g),
                .createTarget (joinPath dir (gameFilename g)),
                .scanIdx (joinPath dir (gameFilename g))],
              matchedRoms
                (fsSet fs (joinPath dir (gameFilename g))
                  ⟨producedMembers alg g.roms (buildSources db alg g.roms), true⟩)
                (joinPath dir (gameFilename g)) g⟩ by
          simp [gameStep, hfsl, hs]] at hr ⊢
        simp only [matchedRoms, fsLookup_fsSet_self] at hr
        rw [List.mem_filter] at hr
        obtain ⟨hrrom, hrname⟩ := hr
        have hname : r.name ∈
            (producedMembers alg g.roms (buildSources db alg g.roms)).map
              Member.name := by
          simpa using hrname
        refine ⟨?_, ⟨producedMembers alg g.roms (buildSources db alg g.roms), true⟩,
          fsLookup_fsSet_self _ _ _, by simpa using hname⟩
        obtain ⟨r', hr', hn', hsome⟩ :=
          mem_producedMembers_names alg g.roms (buildSources db alg g.roms)
            r.name hname
        have hkey : r'.name ∈ (buildSources db alg g.roms).map Prod.fst :=
          (assocFind_isSome_iff _ _).mp hsome
        rcases buildSourcesAux_keys_from db alg g.roms [] r'.name hkey with
          habs | ⟨r'', hr'', hn'', hsrc''⟩
        · simp at habs
        · have heq2 : r'' = r' :=
            List.inj_on_of_nodup_map hnodup hr'' hr' hn''
          have heq1 : r' = r :=
            List.inj_on_of_nodup_map hnodup hr' hrrom hn'
          rw [heq2, heq1] at hsrc''
          exact hsrc''
    · simp only [gameStep, hfsl, Bool.false_eq_true, if_false] at hr ⊢
      split_ifs at hr ⊢ with h1 h2 h3
      · -- verify: the file is untouched and matching ran over it
        simp only at hr ⊢
        simp only [matchedRoms, hfsl] at hr
        rw [List.mem_filter] at hr
        obtain ⟨hrrom, hrname⟩ := hr
        have hname : r.name ∈ zf.members.map Member.name := by
          simpa using hrname
        refine ⟨?_, zf, by simpa using hfsl, hname⟩
        obtain ⟨hmnodup, hdb⟩ := hscan zf hfsl
        have hall : ∀ r' ∈ g.roms, romSourced db alg r' →
            romHasSelf db alg (joinPath dir (gameFilename g)) r' := by
          by_contra hcon
          push_neg at hcon
          obtain ⟨r', hr', hsrc, hnself⟩ := hcon
          exact h1.1 ((modifySources_rewrite_iff db alg g.roms
            (joinPath dir (gameFilename g)) (!zf.valid)).mpr
            (Or.inr ⟨r', hr', hsrc, hnself⟩))
        have hkeysub :
            (modifySources db alg g.roms (joinPath dir (gameFilename g))
                (!zf.valid)).1.map Prod.fst ⊆ zf.members.map Member.name := by
          intro x hx
          rcases modifySourcesAux_keys_from db alg
              (joinPath dir (gameFilename g)) g.roms ([], !zf.valid) x hx with
            habs | ⟨r', hr', hn, hsrc⟩
          · simp at habs
          · obtain ⟨s, hsmem, hsname, hsfile⟩ := hall r' hr' hsrc
            obtain ⟨m, hmmem, hmname⟩ :=
              hdb (romChecksum r' alg) s hsmem hsname
            have hmx : m.name = x := by rw [hmname, hsfile, hn]
            exact hmx ▸ List.mem_map_of_mem Member.name hmmem
        have hkeysnodup :
            ((modifySources db alg g.roms (joinPath dir (gameFilename g))
                (!zf.valid)).1.map Prod.fst).Nodup :=
          modifySourcesAux_keys_nodup db alg (joinPath dir (gameFilename g))
            g.roms ([], !zf.valid) (by simp)
        have hlen : (zf.members.map Member.name).length ≤
            ((modifySources db alg g.roms (joinPath dir (gameFilename g))
                (!zf.valid)).1.map Prod.fst).length := by
          rw [List.length_map, List.length_map]
          exact le_of_eq h1.2.symm
        have hperm := (hkeysnodup.subperm hkeysub).perm_of_length_le hlen
        have hrk : r.name ∈
            (modifySources db alg g.roms (joinPath dir (gameFilename g))
                (!zf.valid)).1.map Prod.fst := hperm.mem_iff.mpr hname
        rcases modifySourcesAux_keys_from db alg
            (joinPath dir (gameFilename g)) g.roms ([], !zf.valid) r.name hrk with
          habs | ⟨r'', hr'', hn'', hsrc''⟩
        · simp at habs
        · have heq : r'' = r :=
            List.inj_on_of_nodup_map hnodup hr'' hrrom hn''
          rw [heq] at hsrc''
          exact hsrc''
      · -- delete: the file is gone, nothing matches
        simp only at hr
        simp only [matchedRoms, fsLookup_fsRemove_self] at hr
        cases hr
      · -- rebuild / modify: matching ran over the freshly produced file
        simp only at hr ⊢
        simp only [matchedRoms, fsLookup_fsSet_self] at hr
        rw [List.mem_filter] at hr
        obtain ⟨hrrom, hrname⟩ := hr
        have hname : r.name ∈
            (producedMembers alg g.roms
                (modifySources db alg g.roms (joinPath dir (gameFilename g))
                  (!zf.valid)).1).map Member.name := by
          simpa using hrname
        refine ⟨?_,
          ⟨producedMembers alg g.roms
              (modifySources db alg g.roms (joinPath dir (gameFilename g))
                (!zf.valid)).1, true⟩,
          fsLookup_fsSet_self _ _ _, by simpa using hname⟩
        obtain ⟨r', hr', hn', hsome⟩ :=
          mem_producedMembers_names alg g.roms _ r.name hname
        have hkey : r'.name ∈
            (modifySources db alg g.roms (joinPath dir (gameFilename g))
                (!zf.valid)).1.map Prod.fst :=
          (assocFind_isSome_iff _ _).mp hsome
        rcases modifySourcesAux_keys_from db alg
            (joinPath dir (gameFilename g)) g.roms ([], !zf.valid) r'.name hkey with
          habs | ⟨r'', hr'', hn'', hsrc''⟩
        · simp at habs
        · have heq2 : r'' = r' :=
            List.inj_on_of_nodup_map hnodup hr'' hr' hn''
          have heq1 : r' = r :=
            List.inj_on_of_nodup_map hnodup hr' hrrom hn'
          rw [heq2, heq1] at hsrc''
          exact hsrc''
      · -- rebuild / modify: matching ran over the freshly produced file
        simp only at hr ⊢
        simp only [matchedRoms, fsLookup_fsSet_self] at hr
        rw [List.mem_filter] at hr
        obtain ⟨hrrom, hrname⟩ := hr
        have hname : r.name ∈
            (producedMembers alg g.roms
                (modifySources db alg g.roms (joinPath dir (gameFilename g))
                  (!zf.valid)).1).map Member.name := by
          simpa using hrname
        refine ⟨?_,
          ⟨producedMembers alg g.roms
              (modifySources db alg g.roms (joinPath dir (gameFilename g))
                (!zf.valid)).1, true⟩,
          fsLookup_fsSet_self _ _ _, by simpa using hname⟩
        obtain ⟨r', hr', hn', hsome⟩ :=
          mem_producedMembers_names alg g.roms _ r.name hname
        have hkey : r'.name ∈
            (modifySources db alg g.roms (joinPath dir (gameFilename g))
                (!zf.valid)).1.map Prod.fst :=
          (assocFind_isSome_iff _ _).mp hsome
        rcases modifySourcesAux_keys_from db alg
            (joinPath dir (gameFilename g)) g.roms ([], !zf.valid) r'.name hkey with
          habs | ⟨r'', hr'', hn'', hsrc''⟩
        · simp at habs
        · have heq2 : r'' = r' :=
            List.inj_on_of_nodup_map hnodup hr'' hr' hn''
          have heq1 : r' = r :=
            List.inj_on_of_nodup_map hnodup hr' hrrom hn'
          rw [heq2, heq1] at hsrc''
          exact hsrc''

/-- C3 witness: a fresh create from a one-entry index marks the single
ROM, whose fingerprint the index satisfied and whose name is in the
produced archive. -/
theorem matched_implies_fingerprint_or_missing_witness :
    ([] : List String).contains "G" = true ∨
    (dbFind [(⟨.crc32, "aaaa", 10⟩, [⟨"s.zip", "a"⟩])]
        (romChecksum ⟨"a", 10, "AAAA", "", "", false⟩ .crc32) ≠ [] ∧
      ∃ zf, fsLookup (processGame [] false .crc32 "t"
            [(⟨.crc32, "aaaa", 10⟩, [⟨"s.zip", "a"⟩])] []
            ⟨"G", "", "", [⟨"a", 10, "AAAA", "", "", false⟩]⟩).fs
          (joinPath "t"
            (gameFilename ⟨"G", "", "", [⟨"a", 10, "AAAA", "", "", false⟩]⟩)) =
          some zf ∧
        (⟨"a", 10, "AAAA", "", "", false⟩ : DatROM).name ∈
          zf.members.map Member.name) :=
  matched_implies_fingerprint_or_missing [] .crc32 "t"
    [(⟨.crc32, "aaaa", 10⟩, [⟨"s.zip", "a"⟩])] []
    ⟨"G", "", "", [⟨"a", 10, "AAAA", "", "", false⟩]⟩ (by decide)
    (fun zf h => by simp [fsLookup] at h)
    ⟨"a", 10, "AAAA", "", "", false⟩ (by decide)

end Rom
